import Mathlib

set_option maxRecDepth 100000

/-!
Verification of the stub generator in `easycpp/stubs.py`.

The Python module is embedded shallowly: strings are `List Char`, the
module-level compiled regular expressions become hand-derived search
functions (each one is deterministic because every quantified character
class in the original pattern is disjoint from the character that must
follow it, so greedy matching never backtracks productively), the
in-memory string building becomes pure functions, exceptions become
`Option`, and the two file accesses become an association-list file
system.  All definitions are executable.
-/

namespace EasyCpp

/-- Strings from the Python program are modelled as lists of characters. -/
abbrev Str := List Char

/-- Membership of a character in the Python regex class `\w` (ASCII fragment):
letters, digits and the underscore.  The classes `[\w\d]`, `[\w_]` and
`[\w\d_]` of the source all coincide with it. -/
def isWordChar (c : Char) : Bool :=
  c.isAlphanum || c = '_'

/-- Membership in the Python regex class `\s` (ASCII fragment) — also the
character set stripped by `str.strip()`. -/
def isSpacePy (c : Char) : Bool :=
  c = ' ' || c = '\t' || c = '\n' || c = '\x0b' || c = '\x0c' || c = '\r'

/-- Membership in the class `[\w\d*\s\[\]]` used for the parameter list of
`_FUNCTION_REGEX`. -/
def isParamChar (c : Char) : Bool :=
  isWordChar c || c = '*' || isSpacePy c || c = '[' || c = ']'

/-- Test whether `pat` is a prefix of `s` (Boolean, by character equality). -/
def startsWith : Str → Str → Bool
  | _, [] => true
  | [], _ :: _ => false
  | a :: as, b :: bs => a = b && startsWith as bs

/-- Test whether `pat` occurs as a contiguous substring of `s`. -/
def hasSub : Str → Str → Bool
  | [], pat => pat.isEmpty
  | s@(_ :: t), pat => startsWith s pat || hasSub t pat

/-- Python `str.split(sep)` for a one-character separator: empty pieces are
kept and the empty string splits to `[""]`. -/
def splitChar (s : Str) (sep : Char) : List Str :=
  match s with
  | [] => [[]]
  | c :: t =>
    match splitChar t sep with
    | [] => [[]]
    | r :: rs => if c = sep then [] :: r :: rs else (c :: r) :: rs

/-- Python `str.replace(old, '')` for a one-character `old`: drop every
occurrence of the character. -/
def removeChar (s : Str) (c : Char) : Str :=
  s.filter (fun d => !(d = c))

/-- Model of `_POINTER_OR_ADDRESS.sub('', s)`: delete every `*` and `&`. -/
def removeSigils (s : Str) : Str :=
  s.filter (fun d => !(d = '*' || d = '&'))

/-- Python `str.lstrip(chars)`: drop leading characters as long as they belong
to the character set `chars` (a set, not a prefix — this is the documented
Python semantics and the source of the return-type quirk below). -/
def lstripSet (s : Str) (chars : Str) : Str :=
  s.dropWhile (fun c => chars.contains c)

/-- Python `str.strip()`: drop whitespace from both ends. -/
def stripPy (s : Str) : Str :=
  ((s.dropWhile isSpacePy).reverse.dropWhile isSpacePy).reverse

/-- Python `str.replace('  ', ' ')`: one left-to-right pass replacing each
non-overlapping double space by a single space. -/
def replaceDoubleSpace : Str → Str
  | ' ' :: ' ' :: t => ' ' :: replaceDoubleSpace t
  | c :: t => c :: replaceDoubleSpace t
  | [] => []

/-- Python `' ' * n` where `n` is the (integer) indentation counter; a
non-positive count yields the empty string, exactly as in Python. -/
def spacesI (n : Int) : Str :=
  List.replicate n.toNat ' '

/-!
Models of the compiled regular expressions.  Each `..At` function decides
whether the pattern matches at the start of the string (with the groups it
captures), and the corresponding `.._search` function scans for the leftmost
match, exactly like `re.search`.  The greedy quantifier runs are maximal
character-class runs; in every pattern the character that must follow a run
is excluded from the run's class, so backtracking can never produce a match
that the maximal run misses.
-/

/-- Match of `_FUNCTION_REGEX = ([\w\d]+) ([\w_]+)(\([\w\d*\s\[\]]+\))` at the
start of `s`, returning the three groups (the third includes its enclosing
parentheses, as in the source pattern). -/
def matchFunctionAt (s : Str) : Option (Str × Str × Str) :=
  let a := s.takeWhile isWordChar
  if a.isEmpty then none else
  match s.drop a.length with
  | ' ' :: s1 =>
    let b := s1.takeWhile isWordChar
    if b.isEmpty then none else
    match s1.drop b.length with
    | '(' :: s2 =>
      let inner := s2.takeWhile isParamChar
      if inner.isEmpty then none else
      match s2.drop inner.length with
      | ')' :: _ => some (a, b, '(' :: (inner ++ [')']))
      | _ => none
    | _ => none
  | _ => none

/-- Model of `_FUNCTION_REGEX.search(line)`. -/
def function_search : Str → Option (Str × Str × Str)
  | [] => none
  | s@(_ :: t) =>
    match matchFunctionAt s with
    | some g => some g
    | none => function_search t

/-- Match of `_CLASS_REGEX = class[\s\n\t]*([\w\d_]+)` at the start of `s`,
returning group 1. -/
def matchClassAt (s : Str) : Option Str :=
  if startsWith s ('c' :: 'l' :: 'a' :: 's' :: 's' :: []) then
    let s1 := (s.drop 5).dropWhile isSpacePy
    let name := s1.takeWhile isWordChar
    if name.isEmpty then none else some name
  else none

/-- Model of `_CLASS_REGEX.search(line)`. -/
def class_search : Str → Option Str
  | [] => none
  | s@(_ :: t) =>
    match matchClassAt s with
    | some g => some g
    | none => class_search t

/-- Match of `_VAR_REGEX = ([\w\d_]+)\s+[*&]*([\w\d_]+);` at the start of `s`,
returning groups 1 and 2. -/
def matchVarAt (s : Str) : Option (Str × Str) :=
  let t := s.takeWhile isWordChar
  if t.isEmpty then none else
  let s1 := s.drop t.length
  let w := s1.takeWhile isSpacePy
  if w.isEmpty then none else
  let s2 := (s1.drop w.length).dropWhile (fun c => c = '*' || c = '&')
  let n := s2.takeWhile isWordChar
  if n.isEmpty then none else
  match s2.drop n.length with
  | ';' :: _ => some (t, n)
  | _ => none

/-- Model of `_VAR_REGEX.search(line)`. -/
def var_search : Str → Option (Str × Str)
  | [] => none
  | s@(_ :: t) =>
    match matchVarAt s with
    | some g => some g
    | none => var_search t

/-- Match of `_ARRAY_REGEX = ([\w\d_]+)\s+[*&]*([\w\d_]+)[\s\t\n]*\[[\s\t]*.*[\s\t]*]`
at the start of `s`, returning groups 1 and 2.  After the literal `[` the
tail `[\s\t]*.*[\s\t]*]` matches precisely when a `]` occurs later in the
string, provided the string contains no newline — which holds for every
input fed to it, since `generate_stubs` applies it to lines of
`code.split('\n')`. -/
def matchArrayAt (s : Str) : Option (Str × Str) :=
  let t := s.takeWhile isWordChar
  if t.isEmpty then none else
  let s1 := s.drop t.length
  let w := s1.takeWhile isSpacePy
  if w.isEmpty then none else
  let s2 := (s1.drop w.length).dropWhile (fun c => c = '*' || c = '&')
  let n := s2.takeWhile isWordChar
  if n.isEmpty then none else
  match (s2.drop n.length).dropWhile isSpacePy with
  | '[' :: s3 => if s3.contains ']' then some (t, n) else none
  | _ => none

/-- Model of `_ARRAY_REGEX.search(line)`. -/
def array_search : Str → Option (Str × Str)
  | [] => none
  | s@(_ :: t) =>
    match matchArrayAt s with
    | some g => some g
    | none => array_search t

/-- Match of `_GET_CLASSES_REGEX = class[\s\n\t]*([\w\d_]+)[\s\n\t]*\{[.\n]*`
at the start of `s`, returning group 1 together with the remainder of the
string after the whole (greedy) match — `re.findall` resumes scanning
there. -/
def matchGetClassesAt (s : Str) : Option (Str × Str) :=
  if startsWith s ('c' :: 'l' :: 'a' :: 's' :: 's' :: []) then
    let s1 := (s.drop 5).dropWhile isSpacePy
    let name := s1.takeWhile isWordChar
    if name.isEmpty then none else
    match (s1.drop name.length).dropWhile isSpacePy with
    | '{' :: s2 => some (name, s2.dropWhile (fun c => c = '.' || c = '\n'))
    | _ => none
  else none

/-- Scanning loop of `_GET_CLASSES_REGEX.findall(code)`: on a match, record
group 1 and resume after the match; otherwise advance one character.  `fuel`
bounds the recursion; every step consumes at least one character, so
`fuel = s.length` makes the model exact. -/
def findClassesAux : Nat → Str → List Str
  | 0, _ => []
  | _ + 1, [] => []
  | fuel + 1, s@(_ :: t) =>
    match matchGetClassesAt s with
    | some (name, rest) => name :: findClassesAux fuel rest
    | none => findClassesAux fuel t

/-- Model of `[name for name in _GET_CLASSES_REGEX.findall(code)]`. -/
def find_classes (code : Str) : List Str :=
  findClassesAux code.length code

/-- Model of `_FILE_SUFFIX_REGEX.sub('.pyi', path)` for the pattern
`\.c(pp)?`: one left-to-right pass replacing every non-overlapping
occurrence, the greedy optional group preferring `.cpp` over `.c`. -/
def file_suffix_sub : Str → Str
  | '.' :: 'c' :: 'p' :: 'p' :: t => '.' :: 'p' :: 'y' :: 'i' :: file_suffix_sub t
  | '.' :: 'c' :: t => '.' :: 'p' :: 'y' :: 'i' :: file_suffix_sub t
  | c :: t => c :: file_suffix_sub t
  | [] => []

/-!
The type resolver `_get_name` and its conversion table.  A value `none` in
the table stands for Python `None` (rendered by `str` as `"None"`); a value
`some n` stands for a Python `type` object whose `__name__` is `n`.
-/

/-- The fixed table `_CTYPES_CONVERSIONS`. -/
def _CTYPES_CONVERSIONS : List (Str × Option Str) :=
  [("void".toList, none),
   ("bool".toList, some "bool".toList),
   ("char".toList, some "str".toList),
   ("wchar_t".toList, some "str".toList),
   ("short".toList, some "int".toList),
   ("int".toList, some "int".toList),
   ("long".toList, some "int".toList),
   ("__int64".toList, some "int".toList),
   ("size_t".toList, some "int".toList),
   ("ssize_t".toList, some "int".toList),
   ("float".toList, some "float".toList),
   ("double".toList, some "float".toList)]

/-- Dictionary lookup `_CTYPES_CONVERSIONS.get(string, _sentinel)`; `none`
plays the role of the sentinel. -/
def lookupConv (s : Str) : Option (Option Str) :=
  match _CTYPES_CONVERSIONS.find? (fun kv => kv.1 = s) with
  | some kv => some kv.2
  | none => none

/-- Model of `_get_name`: table hit renders the mapped value (`str(None)` is
the string `None`, a type object renders as its name); otherwise a known
class name is returned unchanged and anything else falls back to
`typing.Any`. -/
def _get_name (string : Str) (classes : List Str) : Str :=
  match lookupConv string with
  | some none => "None".toList
  | some (some n) => n
  | none => if classes.contains string then string else "typing.Any".toList

/-- The fixed preamble `BASE_STRING`, transcribed byte for byte (including the
four trailing spaces on the line after `__delitem__`). -/
def BASE_STRING : String :=
  "import typing\n\nT = typing.TypeVar('T')\n\n\nclass _MutableCollection(typing.Collection[T]):  # this is made to type arrays\n    def __getitem__(self, name: str) -> T: ...\n    def __setitem__(self, index: int, value: T) -> None: ...\n    def __delitem__(self, index: int) -> None: ...\n    \n# typing for C++ below\n\n"

/-- `BASE_STRING` as a character list. -/
def base_chars : Str := BASE_STRING.toList

/-!
Model of `_get_function_annotations`.  The destructuring assignment
`parameter_type_string, parameter_name = parameter.split(' ')` raises
`ValueError` unless the split yields exactly two pieces; that uncaught
exception is modelled by `Option`.
-/

/-- Processing of one raw comma-piece of the parameter list: strip, collapse
double spaces once, split on single spaces, require exactly a type and a
name, remove `*`/`&` sigils from both, resolve the type.  Returns the
emitted `name: type` fragment, or `none` for the `ValueError` case. -/
def paramFrag (classes : List Str) (parameter : Str) : Option Str :=
  match splitChar (replaceDoubleSpace (stripPy parameter)) ' ' with
  | [ts, n] =>
    some (removeSigils n ++ (':' :: ' ' :: []) ++ _get_name (removeSigils ts) classes)
  | _ => none

/-- The parameter loop of `_get_function_annotations`: fragments of
consecutive parameters are appended directly to the signature, with no
separator between them. -/
def buildParams (classes : List Str) : List Str → Option Str
  | [] => some []
  | p :: rest =>
    match paramFrag classes p with
    | none => none
    | some f =>
      match buildParams classes rest with
      | none => none
      | some g => some (f ++ g)

/-- The return-type computation
`function_match.group(1).lstrip('*').lstrip('unsigned ').lstrip('long ')`.
Each `lstrip` removes all leading characters belonging to its character
set. -/
def return_type_string (g1 : Str) : Str :=
  lstripSet (lstripSet (lstripSet g1 ('*' :: [])) "unsigned ".toList) "long ".toList

/-- Model of `_get_function_annotations`, applied to the three groups of a
function match. -/
def _get_function_annotations (g1 g2 g3 : Str) (classes : List Str)
    (current_level : Int) : Option Str :=
  let parameters := splitChar (removeChar (removeChar g3 '(') ')') ','
  match buildParams classes parameters with
  | none => none
  | some frags =>
    some (spacesI current_level ++ "def ".toList ++ g2 ++ ('(' :: []) ++ frags
      ++ ") -> ".toList ++ _get_name (return_type_string g1) classes
      ++ ": ...".toList ++ ('\n' :: '\n' :: []))

/-!
The per-line step of `generate_stubs`: the four searches, the emissions (in
source order: class, function, variable, array) and the brace bookkeeping.
-/

/-- The brace/indent bookkeeping at the end of the loop body: a `{` adds one
indent unit and a `}` removes one when the (already updated) counter is at
least one unit; both steps are skipped when the line matched the function
pattern. -/
def updateLevel (line : Str) (isFn : Bool) (lvl : Int) : Int :=
  let l1 := if line.contains '{' && !isFn then lvl + 4 else lvl
  if line.contains '}' && decide (4 ≤ l1) && !isFn then l1 - 4 else l1

/-- The `if class_match:` emission: the class header followed by its
placeholder body, one indent unit deeper, as a single appended fragment. -/
def classFragsOf (line : Str) (lvl : Int) : List Str :=
  match class_search line with
  | some name =>
    [spacesI lvl ++ "class ".toList ++ name ++ (':' :: '\n' :: [])
      ++ spacesI (lvl + 4) ++ "...".toList ++ ('\n' :: [])]
  | none => []

/-- The `if function_match:` emission (`none` when
`_get_function_annotations` raises). -/
def fnFragsOf (classes : List Str) (line : Str) (lvl : Int) : Option (List Str) :=
  match function_search line with
  | some (g1, g2, g3) =>
    match _get_function_annotations g1 g2 g3 classes lvl with
    | none => none
    | some f => some [f]
  | none => some []

/-- The `if var_match:` emission. -/
def varFragsOf (classes : List Str) (line : Str) (lvl : Int) : List Str :=
  match var_search line with
  | some (t, n) =>
    [spacesI lvl ++ n ++ (':' :: ' ' :: []) ++ _get_name t classes ++ ('\n' :: [])]
  | none => []

/-- The `if array_match:` emission. -/
def arrFragsOf (classes : List Str) (line : Str) (lvl : Int) : List Str :=
  match array_search line with
  | some (t, n) =>
    [spacesI lvl ++ n ++ ": _MutableCollection[".toList ++ _get_name t classes
      ++ (']' :: '\n' :: [])]
  | none => []

/-- One iteration of the `for line in code.split('\n')` loop: returns the
list of emitted fragments (in the source's emission order: class, function,
variable, array) and the updated indentation counter, or `none` when
`_get_function_annotations` raises. -/
def processLine (classes : List Str) (line : Str) (lvl : Int) :
    Option (List Str × Int) :=
  match fnFragsOf classes line lvl with
  | none => none
  | some fns =>
    some (classFragsOf line lvl ++ fns ++ varFragsOf classes line lvl
        ++ arrFragsOf classes line lvl,
      updateLevel line (function_search line).isSome lvl)

/-- The whole line walk: thread the indentation counter through the lines,
concatenating every emitted fragment onto the output buffer. -/
def process_lines (classes : List Str) : List Str → Int → Option (Str × Int)
  | [], lvl => some ([], lvl)
  | l :: ls, lvl =>
    match processLine classes l lvl with
    | none => none
    | some (frags, lvl') =>
      match process_lines classes ls lvl' with
      | none => none
      | some (out, lvl'') => some (frags.flatten ++ out, lvl'')

/-- The pure core of `generate_stubs`: pre-scan the classes, walk the lines
starting from the preamble and indentation 0, and return the full stub text
(or `none` when the walk raises). -/
def generate_stubs_string (code : Str) : Option Str :=
  match process_lines (find_classes code) (splitChar code '\n') 0 with
  | none => none
  | some (out, _) => some (base_chars ++ out)

/-!
File-system wrapper.  `generate_stubs` derives the destination path, reads
the source, builds the whole stub text in memory and only then opens the
destination for writing; a missing input or an exception during the walk
therefore leaves the file system untouched.
-/

/-- A file system: an association list from paths to contents. -/
def FS := List (Str × Str)

/-- Reading a file; `none` models the `open(path, 'r')` failure. -/
def readFS (fs : FS) (p : Str) : Option Str :=
  match List.find? (fun kv => kv.1 = p) fs with
  | some kv => some kv.2
  | none => none

/-- Writing (creating or truncating) a file. -/
def writeFS (fs : FS) (p v : Str) : FS :=
  (p, v) :: List.filter (fun kv => !(kv.1 = p)) fs

/-- Model of `generate_stubs(path)`: the resulting file system together with
a flag telling whether the operation completed (`false` models an uncaught
exception propagating to the caller). -/
def generate_stubs (fs : FS) (path : Str) : FS × Bool :=
  let stubs_path := file_suffix_sub path
  match readFS fs path with
  | none => (fs, false)
  | some code =>
    match generate_stubs_string code with
    | none => (fs, false)
    | some out => (writeFS fs stubs_path out, true)

/-!
Sanity checks: concrete evaluations of the model, cross-checked against the
behaviour of the CPython string and regex primitives.
-/

example : function_search "int hello(Human human)".toList =
    some ("int".toList, "hello".toList, "(Human human)".toList) := by decide

example : function_search "int add(int a, int b)".toList = none := by decide

example : processLine ["Human".toList] "int hello(Human human)".toList 0 =
    some (["def hello(human: Human) -> typing.Any: ...\n\n".toList], 0) := by decide

example : find_classes "class Human \x7b\n\x7d;\nint hello(Human human)\n".toList =
    ["Human".toList] := by decide

example : generate_stubs_string "class Human \x7b\n\x7d;\nint hello(Human human)\n".toList =
    some (base_chars ++ "class Human:\n    ...\ndef hello(human: Human) -> typing.Any: ...\n\n".toList) := by decide

example : generate_stubs_string "void f(int)".toList = none := by decide

example : _get_function_annotations "void".toList "f".toList "(int a,long b)".toList [] 0 =
    some "def f(a: intb: int) -> None: ...\n\n".toList := by decide

example : processLine [] "int values[10];".toList 8 =
    some (["        values: _MutableCollection[int]\n".toList], 8) := by decide

example : processLine [] "foo bar baz".toList 0 = some ([], 0) := by decide

example : file_suffix_sub "my.code.cpp".toList = "my.pyiode.pyi".toList := by decide

example : return_type_string "int".toList = "t".toList := by decide

/-!
General lemmas about the string utilities.
-/

theorem startsWith_append (a b p : Str) (h : startsWith a p = true) :
    startsWith (a ++ b) p = true := by
  induction a generalizing p with
  | nil =>
    cases p with
    | nil => cases b <;> rfl
    | cons q qs => simp [startsWith] at h
  | cons c cs ih =>
    cases p with
    | nil => rfl
    | cons q qs =>
      simp only [startsWith, Bool.and_eq_true] at h ⊢
      exact ⟨h.1, ih qs h.2⟩

theorem startsWith_self_append (p b : Str) : startsWith (p ++ b) p = true := by
  induction p with
  | nil => cases b <;> rfl
  | cons c cs ih => simp [startsWith, ih]

theorem hasSub_of_startsWith (s p : Str) (h : startsWith s p = true) :
    hasSub s p = true := by
  cases s with
  | nil =>
    cases p with
    | nil => rfl
    | cons q qs => simp [startsWith] at h
  | cons c cs => simp [hasSub, h]

theorem hasSub_append_right (a b p : Str) (h : hasSub b p = true) :
    hasSub (a ++ b) p = true := by
  induction a with
  | nil => simpa using h
  | cons c cs ih =>
    simp only [List.cons_append, hasSub, Bool.or_eq_true]
    exact Or.inr ih

theorem hasSub_append_left (a b p : Str) (h : hasSub a p = true) :
    hasSub (a ++ b) p = true := by
  induction a with
  | nil =>
    cases p with
    | nil => exact hasSub_of_startsWith _ _ (by cases b <;> rfl)
    | cons q qs => simp [hasSub, List.isEmpty] at h
  | cons c cs ih =>
    simp only [hasSub, Bool.or_eq_true] at h
    simp only [List.cons_append, hasSub, Bool.or_eq_true]
    cases h with
    | inl h => exact Or.inl (startsWith_append _ _ _ h)
    | inr h => exact Or.inr (ih h)

theorem takeWhile_head (p : Char → Bool) (l : List Char) (c : Char) (r : List Char)
    (h : l.takeWhile p = c :: r) : p c = true := by
  cases l with
  | nil => simp [List.takeWhile] at h
  | cons a as =>
    rw [List.takeWhile_cons] at h
    by_cases hp : p a = true
    · rw [if_pos hp] at h
      cases h
      exact hp
    · simp [hp] at h

theorem wordChar_not_space (c : Char) (h : isWordChar c = true) :
    isSpacePy c = false := by
  by_contra hs
  have hs' : isSpacePy c = true := by
    cases hv : isSpacePy c
    · exact absurd hv hs
    · rfl
  simp only [isSpacePy, Bool.or_eq_true, decide_eq_true_eq] at hs'
  rcases hs' with ((((h1 | h1) | h1) | h1) | h1) | h1 <;> subst h1 <;>
    exact absurd h (by decide)

/-!
Structural lemmas about the line walk.
-/

theorem processLine_level (classes : List Str) (line : Str) (lvl : Int)
    (frags : List Str) (lvl' : Int)
    (h : processLine classes line lvl = some (frags, lvl')) :
    lvl' = updateLevel line (function_search line).isSome lvl := by
  unfold processLine at h
  cases hfn : fnFragsOf classes line lvl with
  | none => rw [hfn] at h; exact absurd h (by simp)
  | some fns =>
    rw [hfn] at h
    simp only [Option.some.injEq, Prod.mk.injEq] at h
    exact h.2.symm

theorem processLine_frags (classes : List Str) (line : Str) (lvl : Int)
    (frags : List Str) (lvl' : Int)
    (h : processLine classes line lvl = some (frags, lvl')) :
    ∃ fns, fnFragsOf classes line lvl = some fns ∧
      frags = classFragsOf line lvl ++ fns ++ varFragsOf classes line lvl
        ++ arrFragsOf classes line lvl := by
  unfold processLine at h
  cases hfn : fnFragsOf classes line lvl with
  | none => rw [hfn] at h; exact absurd h (by simp)
  | some fns =>
    rw [hfn] at h
    simp only [Option.some.injEq, Prod.mk.injEq] at h
    exact ⟨fns, rfl, h.1.symm⟩

theorem process_lines_append (classes : List Str) (xs ys : List Str) (lvl : Int) :
    process_lines classes (xs ++ ys) lvl =
      match process_lines classes xs lvl with
      | none => none
      | some (o, l) =>
        match process_lines classes ys l with
        | none => none
        | some (o2, l2) => some (o ++ o2, l2) := by
  induction xs generalizing lvl with
  | nil =>
    simp only [List.nil_append, process_lines]
    cases process_lines classes ys lvl with
    | none => rfl
    | some r => cases r; simp
  | cons x xs ih =>
    simp only [List.cons_append, process_lines]
    cases processLine classes x lvl with
    | none => rfl
    | some r =>
      cases r with
      | mk frags lvl' =>
        simp only [List.append_eq]
        rw [ih lvl']
        cases process_lines classes xs lvl' with
        | none => rfl
        | some r2 =>
          cases r2 with
          | mk o l =>
            simp only []
            cases process_lines classes ys l with
            | none => rfl
            | some r3 => cases r3; simp

/-!
The captured groups of the variable and array patterns are nonempty runs of
word characters; in particular their first character is not whitespace.
-/

theorem takeWhile_nonempty (p : Char → Bool) (l : List Char)
    (h : ¬ ((l.takeWhile p).isEmpty = true)) :
    ∃ c r, l.takeWhile p = c :: r ∧ p c = true := by
  cases hn : l.takeWhile p with
  | nil => rw [hn] at h; exact absurd rfl h
  | cons c r => exact ⟨c, r, rfl, takeWhile_head p l c r hn⟩

theorem matchVarAt_name (s : Str) (t n : Str) (h : matchVarAt s = some (t, n)) :
    ∃ c r, n = c :: r ∧ isWordChar c = true := by
  simp only [matchVarAt] at h
  split at h
  next => exact absurd h (by simp)
  next h1 =>
  split at h
  next => exact absurd h (by simp)
  next h2 =>
  split at h
  next => exact absurd h (by simp)
  next h3 =>
  split at h
  next =>
    rw [Option.some.injEq, Prod.mk.injEq] at h
    obtain ⟨ht, hn⟩ := h
    obtain ⟨c, r, hcr, hw⟩ := takeWhile_nonempty _ _ h3
    exact ⟨c, r, by rw [← hn, hcr], hw⟩
  next => exact absurd h (by simp)

theorem matchArrayAt_name (s : Str) (t n : Str) (h : matchArrayAt s = some (t, n)) :
    ∃ c r, n = c :: r ∧ isWordChar c = true := by
  simp only [matchArrayAt] at h
  split at h
  next => exact absurd h (by simp)
  next h1 =>
  split at h
  next => exact absurd h (by simp)
  next h2 =>
  split at h
  next => exact absurd h (by simp)
  next h3 =>
  split at h
  next c s3 heq =>
    split at h
    next =>
      rw [Option.some.injEq, Prod.mk.injEq] at h
      obtain ⟨ht, hn⟩ := h
      obtain ⟨c', r, hcr, hw⟩ := takeWhile_nonempty _ _ h3
      exact ⟨c', r, by rw [← hn, hcr], hw⟩
    next => exact absurd h (by simp)
  next => exact absurd h (by simp)

theorem var_search_name (s : Str) (t n : Str) (h : var_search s = some (t, n)) :
    ∃ c r, n = c :: r ∧ isWordChar c = true := by
  induction s with
  | nil => exact absurd h (by simp [var_search])
  | cons a l ih =>
    rw [var_search] at h
    cases hm : matchVarAt (a :: l) with
    | some g =>
      rw [hm] at h
      cases g with
      | mk g1 g2 =>
        rw [Option.some.injEq] at h
        cases h
        exact matchVarAt_name (a :: l) t n hm
    | none =>
      rw [hm] at h
      exact ih h

theorem array_search_name (s : Str) (t n : Str) (h : array_search s = some (t, n)) :
    ∃ c r, n = c :: r ∧ isWordChar c = true := by
  induction s with
  | nil => exact absurd h (by simp [array_search])
  | cons a l ih =>
    rw [array_search] at h
    cases hm : matchArrayAt (a :: l) with
    | some g =>
      rw [hm] at h
      cases g with
      | mk g1 g2 =>
        rw [Option.some.injEq] at h
        cases h
        exact matchArrayAt_name (a :: l) t n hm
    | none =>
      rw [hm] at h
      exact ih h

/-!
Structure of `_get_function_annotations`: the parameter loop is the
flattening (concatenation with no separator) of the individual `name: type`
fragments, and a parameter whose space-split does not have exactly two
pieces makes the whole call fail.
-/

/-- The fragments of all parameters, kept as a list (`none` when any
parameter raises). -/
def mapParamFrags (classes : List Str) : List Str → Option (List Str)
  | [] => some []
  | p :: rest =>
    match paramFrag classes p, mapParamFrags classes rest with
    | some f, some fs => some (f :: fs)
    | _, _ => none

/-- Decides whether a raw parameter piece splits into exactly a type token
and a name. -/
def paramSplitOk (p : Str) : Bool :=
  match splitChar (replaceDoubleSpace (stripPy p)) ' ' with
  | [_, _] => true
  | _ => false

/-- Decides whether a line matches the function pattern with some parameter
piece that does not split into exactly two tokens — the condition under
which `_get_function_annotations` raises `ValueError`. -/
def functionLineFails (line : Str) : Bool :=
  match function_search line with
  | some (_, _, g3) =>
    (splitChar (removeChar (removeChar g3 '(') ')') ',').any (fun p => !(paramSplitOk p))
  | none => false

theorem buildParams_eq (classes : List Str) (ps : List Str) :
    buildParams classes ps = (mapParamFrags classes ps).map List.flatten := by
  induction ps with
  | nil => rfl
  | cons q rest ih =>
    simp only [buildParams, mapParamFrags]
    cases paramFrag classes q with
    | none => rfl
    | some f =>
      rw [ih]
      cases mapParamFrags classes rest with
      | none => rfl
      | some fs => simp

theorem paramFrag_none (classes : List Str) (p : Str) (h : paramSplitOk p = false) :
    paramFrag classes p = none := by
  unfold paramSplitOk at h
  unfold paramFrag
  rcases hs : splitChar (replaceDoubleSpace (stripPy p)) ' ' with _ | ⟨a, _ | ⟨b, _ | ⟨c, rest⟩⟩⟩
  · rfl
  · rfl
  · rw [hs] at h
    exact absurd h (by simp)
  · rfl

theorem buildParams_none (classes : List Str) (ps : List Str) (p : Str)
    (hp : p ∈ ps) (hbad : paramSplitOk p = false) :
    buildParams classes ps = none := by
  induction ps with
  | nil => exact absurd hp (List.not_mem_nil p)
  | cons q rest ih =>
    rcases List.mem_cons.mp hp with rfl | hmem
    · simp only [buildParams]
      rw [paramFrag_none classes p hbad]
    · simp only [buildParams]
      cases paramFrag classes q with
      | none => rfl
      | some f => rw [ih hmem]

theorem fnFragsOf_none (classes : List Str) (line : Str) (lvl : Int)
    (h : functionLineFails line = true) :
    fnFragsOf classes line lvl = none := by
  unfold functionLineFails at h
  cases hf : function_search line with
  | none => rw [hf] at h; exact absurd h (by simp)
  | some g =>
    rcases g with ⟨g1, g2, g3⟩
    rw [hf] at h
    simp only [List.any_eq_true, Bool.not_eq_true'] at h
    obtain ⟨p, hp, hbad⟩ := h
    simp only [fnFragsOf, hf, _get_function_annotations,
      buildParams_none classes _ p hp hbad]

theorem processLine_fails (classes : List Str) (line : Str) (lvl : Int)
    (h : functionLineFails line = true) :
    processLine classes line lvl = none := by
  unfold processLine
  rw [fnFragsOf_none classes line lvl h]

theorem process_lines_fails (classes : List Str) (lines : List Str) (line : Str)
    (lvl : Int) (hmem : line ∈ lines) (h : functionLineFails line = true) :
    process_lines classes lines lvl = none := by
  induction lines generalizing lvl with
  | nil => exact absurd hmem (List.not_mem_nil line)
  | cons x rest ih =>
    rcases List.mem_cons.mp hmem with rfl | hm
    · simp only [process_lines]
      rw [processLine_fails classes line lvl h]
    · simp only [process_lines]
      cases processLine classes x lvl with
      | none => rfl
      | some r =>
        cases r with
        | mk frags lvl' => simp only [ih lvl' hm]

/-!
Assorted helper lemmas: Boolean membership, the conversion table, the
suffix substitution, and the shape of `_get_function_annotations`.
-/

theorem contains_true {α : Type} [BEq α] [LawfulBEq α] (l : List α) (c : α)
    (h : c ∈ l) : l.contains c = true := by
  have hiff : l.contains c = true ↔ c ∈ l := List.elem_iff
  exact hiff.mpr h

theorem contains_false {α : Type} [BEq α] [LawfulBEq α] (l : List α) (c : α)
    (h : c ∉ l) : l.contains c = false := by
  have hiff : l.contains c = true ↔ c ∈ l := List.elem_iff
  cases hv : l.contains c
  · rfl
  · exact absurd (hiff.mp hv) h

theorem lookupConv_none (token : Str)
    (h : token ∉ _CTYPES_CONVERSIONS.map Prod.fst) : lookupConv token = none := by
  unfold lookupConv
  cases hf : _CTYPES_CONVERSIONS.find? (fun kv => kv.1 = token) with
  | none => rfl
  | some kv =>
    exfalso
    have hp := List.find?_some hf
    have hmem := List.mem_of_find?_eq_some hf
    apply h
    rw [List.mem_map]
    exact ⟨kv, hmem, of_decide_eq_true hp⟩

theorem get_name_of_mem (token : Str) (classes : List Str)
    (h1 : token ∉ _CTYPES_CONVERSIONS.map Prod.fst) (h2 : token ∈ classes) :
    _get_name token classes = token := by
  unfold _get_name
  rw [lookupConv_none token h1, contains_true classes token h2]
  rfl

theorem get_name_fallback (token : Str) (classes : List Str)
    (h1 : token ∉ _CTYPES_CONVERSIONS.map Prod.fst) (h2 : token ∉ classes) :
    _get_name token classes = "typing.Any".toList := by
  unfold _get_name
  rw [lookupConv_none token h1, contains_false classes token h2]
  rfl

theorem file_suffix_sub_cons (c : Char) (t : Str)
    (h : ¬(c = '.' ∧ ∃ r, t = 'c' :: r)) :
    file_suffix_sub (c :: t) = c :: file_suffix_sub t := by
  rw [file_suffix_sub.eq_def]
  split
  next heq =>
    injection heq with h1 h2
    exact absurd ⟨h1, _, h2⟩ h
  next heq =>
    injection heq with h1 h2
    exact absurd ⟨h1, _, h2⟩ h
  next heq =>
    injection heq with h1 h2
    subst h1
    subst h2
    rfl
  next heq => simp at heq

theorem gfa_eq (g1 g2 g3 : Str) (classes : List Str) (lvl : Int) :
    _get_function_annotations g1 g2 g3 classes lvl =
      match mapParamFrags classes (splitChar (removeChar (removeChar g3 '(') ')') ',') with
      | none => none
      | some frags =>
        some (spacesI lvl ++ "def ".toList ++ g2 ++ ('(' :: []) ++ frags.flatten
          ++ ") -> ".toList ++ _get_name (return_type_string g1) classes
          ++ ": ...".toList ++ ('\n' :: '\n' :: [])) := by
  simp only [_get_function_annotations]
  rw [buildParams_eq]
  cases mapParamFrags classes (splitChar (removeChar (removeChar g3 '(') ')') ',') with
  | none => rfl
  | some frags => simp

theorem updateLevel_nonneg (line : Str) (isFn : Bool) (lvl : Int) (h : 0 ≤ lvl) :
    0 ≤ updateLevel line isFn lvl := by
  unfold updateLevel
  split
  next =>
    simp only []
    split
    next hc2 =>
      simp only [Bool.and_eq_true, decide_eq_true_eq] at hc2
      omega
    next => omega
  next =>
    simp only []
    split
    next hc2 =>
      simp only [Bool.and_eq_true, decide_eq_true_eq] at hc2
      omega
    next => omega

theorem process_lines_nonneg (classes : List Str) (lines : List Str) (lvl : Int)
    (out : Str) (lvl'' : Int) (h0 : 0 ≤ lvl)
    (h : process_lines classes lines lvl = some (out, lvl'')) : 0 ≤ lvl'' := by
  induction lines generalizing lvl out with
  | nil =>
    simp only [process_lines, Option.some.injEq, Prod.mk.injEq] at h
    omega
  | cons x rest ih =>
    simp only [process_lines] at h
    cases hpl : processLine classes x lvl with
    | none => rw [hpl] at h; exact absurd h (by simp)
    | some r =>
      rcases r with ⟨frags, lvl1⟩
      rw [hpl] at h
      simp only [] at h
      cases hr : process_lines classes rest lvl1 with
      | none => rw [hr] at h; exact absurd h (by simp)
      | some r2 =>
        rcases r2 with ⟨o2, l2⟩
        rw [hr] at h
        simp only [Option.some.injEq, Prod.mk.injEq] at h
        obtain ⟨he, hl⟩ := h
        rw [hl] at hr
        have h1 : 0 ≤ lvl1 := by
          rw [processLine_level classes x lvl frags lvl1 hpl]
          exact updateLevel_nonneg x _ lvl h0
        exact ih lvl1 o2 h1 hr

theorem updateLevel_fn (line : Str) (lvl : Int) :
    updateLevel line true lvl = lvl := by
  simp [updateLevel]

/-!
Claim C1.  The spec expects the stub line `def hello(human: Human) -> int: ...`
for the source line `int hello(Human human)`.  The code instead computes the
return type with `'int'.lstrip('*').lstrip('unsigned ').lstrip('long ')`,
and `lstrip` removes leading characters of a character *set*, so `int`
becomes `t`, which resolves to the fallback `typing.Any`.  The amended
statement (return type `typing.Any`, provided no class is named `t`) is
proved below; everything else in the claim (single stub line, trailing blank
line, unchanged indentation) is confirmed.
-/

/-- C1 (counterexample): on the file
`class Human {\n};\nint hello(Human human)\n` — where `Human` is discovered
by the pre-scan and the function line is present — the generated text does
not contain the claimed stub line `def hello(human: Human) -> int: ...`,
although generation succeeds. -/
theorem c1_counterexample :
    "int hello(Human human)".toList ∈
      splitChar "class Human \x7b\n\x7d;\nint hello(Human human)\n".toList '\n' ∧
    "Human".toList ∈ find_classes "class Human \x7b\n\x7d;\nint hello(Human human)\n".toList ∧
    (generate_stubs_string "class Human \x7b\n\x7d;\nint hello(Human human)\n".toList).isSome = true ∧
    hasSub ((generate_stubs_string "class Human \x7b\n\x7d;\nint hello(Human human)\n".toList).getD [])
      "def hello(human: Human) -> int: ...".toList = false := by
  refine ⟨by decide, by decide, by decide, by decide⟩

/-- C1 (amended): processing the line `int hello(Human human)` with `Human`
among the known classes (and no class named `t`) emits exactly the single
fragment `def hello(human: Human) -> typing.Any: ...` followed by a blank
line, at the current indentation, and leaves the indentation level
unchanged. -/
theorem c1_function_stub_line (classes : List Str) (lvl : Int)
    (hH : "Human".toList ∈ classes) (ht : "t".toList ∉ classes) :
    processLine classes "int hello(Human human)".toList lvl =
      some ([spacesI lvl ++ "def hello(human: Human) -> typing.Any: ...\n\n".toList], lvl) := by
  have hf : function_search "int hello(Human human)".toList =
      some ("int".toList, "hello".toList, "(Human human)".toList) := by decide
  have hc : class_search "int hello(Human human)".toList = none := by decide
  have hv : var_search "int hello(Human human)".toList = none := by decide
  have ha : array_search "int hello(Human human)".toList = none := by decide
  have hpf : paramFrag classes "Human human".toList = some ("human: Human".toList) := by
    unfold paramFrag
    have hsp2 : splitChar (replaceDoubleSpace (stripPy "Human human".toList)) ' ' =
        ["Human".toList, "human".toList] := by decide
    rw [hsp2]
    simp only []
    have hg : _get_name "Human".toList classes = "Human".toList :=
      get_name_of_mem _ _ (by decide) hH
    have r1 : removeSigils "Human".toList = "Human".toList := by decide
    have r2 : removeSigils "human".toList = "human".toList := by decide
    rw [r1, r2, hg]
    decide
  have hga : _get_function_annotations "int".toList "hello".toList
      "(Human human)".toList classes lvl =
      some (spacesI lvl ++ "def hello(human: Human) -> typing.Any: ...\n\n".toList) := by
    rw [gfa_eq]
    have hsp : splitChar (removeChar (removeChar "(Human human)".toList '(') ')') ',' =
        ["Human human".toList] := by decide
    rw [hsp]
    have hmp : mapParamFrags classes ["Human human".toList] =
        some (["human: Human".toList]) := by
      unfold mapParamFrags
      rw [hpf]
      rfl
    rw [hmp]
    simp only []
    have hrt : return_type_string "int".toList = "t".toList := by decide
    rw [hrt]
    have hta : _get_name "t".toList classes = "typing.Any".toList :=
      get_name_fallback _ _ (by decide) ht
    rw [hta]
    simp only [List.append_assoc]
    congr 1
  unfold processLine fnFragsOf classFragsOf varFragsOf arrFragsOf
  rw [hf, hc, hv, ha]
  simp only []
  rw [hga]
  simp [updateLevel_fn]

/-- C1 (witness): the amended statement at `classes = [Human]`, level 0. -/
theorem c1_witness :
    processLine ["Human".toList] "int hello(Human human)".toList 0 =
      some ([spacesI 0 ++ "def hello(human: Human) -> typing.Any: ...\n\n".toList], 0) :=
  c1_function_stub_line ["Human".toList] 0 (by decide) (by decide)

/-!
Claim C3: the type resolver.
-/

/-- C3: `_get_name` maps each of the twelve primitive tokens to its exact
destination name (`void` rendering as the string `None`), returns any
non-primitive token that is a known class unchanged, and returns
`typing.Any` for everything else; being a total function, it never
raises. -/
theorem c3_type_resolver :
    (∀ classes : List Str,
      _get_name "void".toList classes = "None".toList ∧
      _get_name "bool".toList classes = "bool".toList ∧
      _get_name "char".toList classes = "str".toList ∧
      _get_name "wchar_t".toList classes = "str".toList ∧
      _get_name "short".toList classes = "int".toList ∧
      _get_name "int".toList classes = "int".toList ∧
      _get_name "long".toList classes = "int".toList ∧
      _get_name "__int64".toList classes = "int".toList ∧
      _get_name "size_t".toList classes = "int".toList ∧
      _get_name "ssize_t".toList classes = "int".toList ∧
      _get_name "float".toList classes = "float".toList ∧
      _get_name "double".toList classes = "float".toList) ∧
    (∀ (token : Str) (classes : List Str),
      token ∉ _CTYPES_CONVERSIONS.map Prod.fst → token ∈ classes →
      _get_name token classes = token) ∧
    (∀ (token : Str) (classes : List Str),
      token ∉ _CTYPES_CONVERSIONS.map Prod.fst → token ∉ classes →
      _get_name token classes = "typing.Any".toList) :=
  ⟨fun _ => ⟨rfl, rfl, rfl, rfl, rfl, rfl, rfl, rfl, rfl, rfl, rfl, rfl⟩,
   get_name_of_mem, get_name_fallback⟩

/-- C3 (witness): the resolver evaluated on a primitive, a known class and
an unknown token. -/
theorem c3_witness :
    _get_name "void".toList [] = "None".toList ∧
    _get_name "Human".toList ["Human".toList] = "Human".toList ∧
    _get_name "Foo".toList [] = "typing.Any".toList :=
  ⟨(c3_type_resolver.1 []).1,
   c3_type_resolver.2.1 "Human".toList ["Human".toList] (by decide) (by decide),
   c3_type_resolver.2.2 "Foo".toList [] (by decide) (by decide)⟩

/-!
Claim C10: on any failure during the line walk the destination file is
never opened for writing, because the output is built entirely in memory
and written once after the walk; the destination's prior contents survive.
-/

/-- C10: if the input file is readable but the walk raises, `generate_stubs`
leaves the file system exactly unchanged — in particular the destination
path's previous contents are intact. -/
theorem c10_no_partial_write (fs : FS) (path code : Str)
    (h1 : readFS fs path = some code)
    (h2 : generate_stubs_string code = none) :
    generate_stubs fs path = (fs, false) ∧
    readFS (generate_stubs fs path).1 (file_suffix_sub path) =
      readFS fs (file_suffix_sub path) := by
  have hg : generate_stubs fs path = (fs, false) := by
    unfold generate_stubs
    rw [h1]
    simp only [h2]
  exact ⟨hg, by rw [hg]⟩

/-- C10 (witness): a file system holding a malformed source `f.c` and an
existing destination `f.pyi`; the failed run changes nothing. -/
theorem c10_witness :
    generate_stubs
        [("f.c".toList, "void f(int)".toList), ("f.pyi".toList, "old".toList)]
        "f.c".toList =
      ([("f.c".toList, "void f(int)".toList), ("f.pyi".toList, "old".toList)], false) ∧
    readFS (generate_stubs
        [("f.c".toList, "void f(int)".toList), ("f.pyi".toList, "old".toList)]
        "f.c".toList).1
      (file_suffix_sub "f.c".toList) =
      readFS [("f.c".toList, "void f(int)".toList), ("f.pyi".toList, "old".toList)]
        (file_suffix_sub "f.c".toList) :=
  c10_no_partial_write
    [("f.c".toList, "void f(int)".toList), ("f.pyi".toList, "old".toList)]
    "f.c".toList "void f(int)".toList (by decide) (by decide)

/-!
Claim C2.  The spec reads the return-type computation as prefix stripping.
`str.lstrip(chars)` strips a character *set*, so any leading run of
characters drawn from `*`, then from `unsigned ` (the set
`{u,n,s,i,g,e,d,space}`), then from `long ` (the set `{l,o,n,g,space}`) is
removed; `int` is not passed to the resolver unchanged but truncated to
`t`.
-/

/-- C2 (counterexample): the token `int` is not passed to the resolver
unchanged — it is truncated to `t` and the emitted return type becomes
`typing.Any` rather than `int`. -/
theorem c2_counterexample :
    return_type_string "int".toList = "t".toList ∧
    "t".toList ≠ "int".toList ∧
    _get_function_annotations "int".toList "f".toList "(int a)".toList [] 0 =
      some "def f(a: int) -> typing.Any: ...\n\n".toList ∧
    _get_function_annotations "int".toList "f".toList "(int a)".toList [] 0 ≠
      some "def f(a: int) -> int: ...\n\n".toList := by
  refine ⟨by decide, by decide, by decide, by decide⟩

/-- C2 (amended): the emitted return type is obtained by removing all
leading `*` characters, then all leading characters of the set
`unsigned `, then all leading characters of the set `long `, and resolving
the remainder; a token whose first character lies in none of the three sets
is passed to the resolver unchanged (but `int`, whose head `i` is in the
`unsigned ` set, is truncated to `t`). -/
theorem c2_return_type (g1 g2 g3 : Str) (classes : List Str) (lvl : Int)
    (frags : Str)
    (h : buildParams classes (splitChar (removeChar (removeChar g3 '(') ')') ',') =
      some frags) :
    (_get_function_annotations g1 g2 g3 classes lvl =
      some (spacesI lvl ++ "def ".toList ++ g2 ++ ('(' :: []) ++ frags
        ++ ") -> ".toList
        ++ _get_name (lstripSet (lstripSet (lstripSet g1 ('*' :: []))
            "unsigned ".toList) "long ".toList) classes
        ++ ": ...".toList ++ ('\n' :: '\n' :: []))) ∧
    (∀ (c : Char) (t : Str), c ≠ '*' → c ∉ "unsigned ".toList → c ∉ "long ".toList →
      return_type_string (c :: t) = c :: t) ∧
    return_type_string "int".toList = "t".toList := by
  refine ⟨?_, ?_, by decide⟩
  · simp only [_get_function_annotations]
    rw [h]
    rfl
  · intro c t h1 h2 h3
    have e1 : (('*' :: []) : Str).contains c = false := contains_false _ _ (by simp [h1])
    have e2 : ("unsigned ".toList).contains c = false := contains_false _ _ h2
    have e3 : ("long ".toList).contains c = false := contains_false _ _ h3
    simp only [return_type_string, lstripSet, List.dropWhile_cons, e1, e2, e3,
      Bool.false_eq_true, if_false]

/-- C2 (witness): the amended statement at the concrete match
`void f(int a)` and at the head-clean token `float`. -/
theorem c2_witness :
    (_get_function_annotations "void".toList "f".toList "(int a)".toList [] 0 =
      some (spacesI 0 ++ "def ".toList ++ "f".toList ++ ('(' :: []) ++ "a: int".toList
        ++ ") -> ".toList
        ++ _get_name (lstripSet (lstripSet (lstripSet "void".toList ('*' :: []))
            "unsigned ".toList) "long ".toList) []
        ++ ": ...".toList ++ ('\n' :: '\n' :: []))) ∧
    return_type_string ('f' :: "loat".toList) = 'f' :: "loat".toList :=
  ⟨(c2_return_type "void".toList "f".toList "(int a)".toList [] 0 "a: int".toList
      (by decide)).1,
   (c2_return_type "void".toList "f".toList "(int a)".toList [] 0 "a: int".toList
      (by decide)).2.1 'f' "loat".toList (by decide) (by decide) (by decide)⟩

/-!
Claim C8: the parameter fragments are concatenated with no separator.
Note that a parameter list reaching `_get_function_annotations` from
`_FUNCTION_REGEX` can never contain a comma (the pattern's parameter
character class has no comma), so inside `generate_stubs` the two-or-more
case never materialises; the property is proved of
`_get_function_annotations` itself, which performs the comma split.
-/

/-- C8: whenever the comma split of the parameter list yields two or more
pieces and every piece produces its `name: type` fragment, the emitted
signature contains the flattening of those fragments — direct concatenation
with no separator character. -/
theorem c8_no_separator (g1 g2 g3 : Str) (classes : List Str) (lvl : Int)
    (frags : List Str)
    (h : mapParamFrags classes (splitChar (removeChar (removeChar g3 '(') ')') ',') =
      some frags)
    (_hlen : 2 ≤ frags.length) :
    _get_function_annotations g1 g2 g3 classes lvl =
      some (spacesI lvl ++ "def ".toList ++ g2 ++ ('(' :: []) ++ frags.flatten
        ++ ") -> ".toList ++ _get_name (return_type_string g1) classes
        ++ ": ...".toList ++ ('\n' :: '\n' :: [])) := by
  rw [gfa_eq, h]

/-- C8 (witness): `void f(int a,long b)` emits `def f(a: intb: int) ...` —
the two fragments `a: int` and `b: int` glued with no separator. -/
theorem c8_witness :
    _get_function_annotations "void".toList "f".toList "(int a,long b)".toList [] 0 =
      some (spacesI 0 ++ "def ".toList ++ "f".toList ++ ('(' :: [])
        ++ (["a: int".toList, "b: int".toList]).flatten
        ++ ") -> ".toList ++ _get_name (return_type_string "void".toList) []
        ++ ": ...".toList ++ ('\n' :: '\n' :: [])) :=
  c8_no_separator "void".toList "f".toList "(int a,long b)".toList [] 0
    ["a: int".toList, "b: int".toList] (by decide) (by decide)

/-!
Claim C6: the brace bookkeeping.
-/

/-- C6: after the four pattern checks, a line that matched the function
pattern leaves the counter unchanged regardless of braces; otherwise a `{`
adds one four-space unit and a `}` removes one exactly when the counter is
then at least one unit; consequently the counter never becomes negative on
any walk that starts non-negative (in particular from the initial 0). -/
theorem c6_indent_bookkeeping :
    (∀ (classes : List Str) (line : Str) (lvl : Int) (frags : List Str) (lvl' : Int),
      processLine classes line lvl = some (frags, lvl') →
      (function_search line).isSome = true → lvl' = lvl) ∧
    (∀ (classes : List Str) (line : Str) (lvl : Int) (frags : List Str) (lvl' : Int),
      processLine classes line lvl = some (frags, lvl') →
      (function_search line).isSome = false →
      lvl' = (let l1 := if line.contains '{' then lvl + 4 else lvl
              if line.contains '}' && decide (4 ≤ l1) then l1 - 4 else l1)) ∧
    (∀ (classes : List Str) (lines : List Str) (lvl : Int) (out : Str) (lvl'' : Int),
      0 ≤ lvl → process_lines classes lines lvl = some (out, lvl'') → 0 ≤ lvl'') := by
  refine ⟨?_, ?_, process_lines_nonneg⟩
  · intro classes line lvl frags lvl' h hfn
    rw [processLine_level classes line lvl frags lvl' h, hfn]
    exact updateLevel_fn line lvl
  · intro classes line lvl frags lvl' h hfn
    rw [processLine_level classes line lvl frags lvl' h, hfn]
    simp [updateLevel]

/-- C6 (witness): a function line containing `{` leaves the level at 8; the
line `{` raises 0 to 4 by the stated rule; a walk over `{`, `}`, `}` from 0
ends at the non-negative level 0. -/
theorem c6_witness :
    ((8 : Int) = 8) ∧
    ((4 : Int) = (let l1 := if ("\x7b".toList).contains '{' then (0 : Int) + 4 else 0
                  if ("\x7b".toList).contains '}' && decide (4 ≤ l1) then l1 - 4 else l1)) ∧
    (0 ≤ (0 : Int)) :=
  ⟨c6_indent_bookkeeping.1 [] "int f(int x) \x7b".toList 8
      [spacesI 8 ++ "def f(x: int) -> typing.Any: ...\n\n".toList] 8
      (by decide) (by decide),
   c6_indent_bookkeeping.2.1 [] "\x7b".toList 0 [] 4 (by decide) (by decide),
   c6_indent_bookkeeping.2.2 [] ["\x7b".toList, "\x7d".toList, "\x7d".toList] 0 [] 0
      (by decide) (by decide)⟩

/-!
Claim C9: failure semantics of the walk.
-/

/-- C9: a line matching the function pattern with a parameter that does not
split into exactly a type and a name makes `generate_stubs` fail for the
whole file (the walk returns the exception value `none`), while a line
matching none of the four patterns is skipped silently: it emits nothing,
never raises, and only the brace bookkeeping runs. -/
theorem c9_failure_semantics :
    (∀ (code line : Str), line ∈ splitChar code '\n' → functionLineFails line = true →
      generate_stubs_string code = none) ∧
    (∀ (classes : List Str) (line : Str) (lvl : Int),
      function_search line = none → class_search line = none →
      var_search line = none → array_search line = none →
      processLine classes line lvl = some ([], updateLevel line false lvl)) := by
  constructor
  · intro code line hmem hfail
    unfold generate_stubs_string
    rw [process_lines_fails (find_classes code) (splitChar code '\n') line 0 hmem hfail]
  · intro classes line lvl h1 h2 h3 h4
    unfold processLine fnFragsOf classFragsOf varFragsOf arrFragsOf
    rw [h1, h2, h3, h4]
    simp

/-- C9 (witness): the malformed file `void f(int)` aborts generation
entirely, and the unrecognized line `foo bar baz` is skipped silently. -/
theorem c9_witness :
    generate_stubs_string "void f(int)".toList = none ∧
    processLine [] "foo bar baz".toList 0 =
      some ([], updateLevel "foo bar baz".toList false 0) :=
  ⟨c9_failure_semantics.1 "void f(int)".toList "void f(int)".toList (by decide) (by decide),
   c9_failure_semantics.2 [] "foo bar baz".toList 0
     (by decide) (by decide) (by decide) (by decide)⟩

/-!
Claim C4.  `re.sub` replaces every non-overlapping occurrence of the
pattern in one left-to-right pass, not only the trailing suffix: a path
such as `my.code.cpp` becomes `my.pyiode.pyi`, not `my.code.pyi`.  The
amended statement: every occurrence of `.cpp`/`.c` is replaced (greedily
preferring `.cpp`); when the trailing suffix is the only occurrence,
exactly the suffix is replaced.
-/

/-- C4 (counterexample): for the input path `my.code.cpp`, whose suffix
matches, the destination is not the input with only the trailing suffix
replaced — the interior `.c` of `.code` is rewritten as well. -/
theorem c4_counterexample :
    file_suffix_sub "my.code.cpp".toList = "my.pyiode.pyi".toList ∧
    file_suffix_sub "my.code.cpp".toList ≠ "my.code.pyi".toList :=
  ⟨by decide, by decide⟩

/-- C4 (amended): when the pattern `.c` does not occur in the stem, the
substitution replaces exactly the trailing `.cpp` (resp. `.c`) by `.pyi`. -/
theorem c4_suffix_substitution (stem : Str)
    (h : hasSub stem ('.' :: 'c' :: []) = false) :
    file_suffix_sub (stem ++ ('.' :: 'c' :: 'p' :: 'p' :: [])) =
      stem ++ ('.' :: 'p' :: 'y' :: 'i' :: []) ∧
    file_suffix_sub (stem ++ ('.' :: 'c' :: [])) =
      stem ++ ('.' :: 'p' :: 'y' :: 'i' :: []) := by
  induction stem with
  | nil => exact ⟨by decide, by decide⟩
  | cons c stem' ih =>
    have hsw : startsWith (c :: stem') ('.' :: 'c' :: []) = false := by
      cases hb : startsWith (c :: stem') ('.' :: 'c' :: [])
      · rfl
      · rw [hasSub, hb] at h
        simp at h
    have hrest : hasSub stem' ('.' :: 'c' :: []) = false := by
      cases hb : hasSub stem' ('.' :: 'c' :: [])
      · rfl
      · rw [hasSub, hb] at h
        simp at h
    have hc1 : ∀ sfx : Str, sfx.head? ≠ some 'c' →
        ¬(c = '.' ∧ ∃ r, stem' ++ sfx = 'c' :: r) := by
      rintro sfx hsfx ⟨hc, r, hr⟩
      cases stem' with
      | nil =>
        rw [List.nil_append] at hr
        rw [hr] at hsfx
        exact hsfx rfl
      | cons d stem'' =>
        injection hr with hd _
        subst hc
        subst hd
        rw [show startsWith ('.' :: 'c' :: stem'') ('.' :: 'c' :: []) = true by
          simp [startsWith]] at hsw
        exact absurd hsw (by simp)
    constructor
    · rw [List.cons_append, file_suffix_sub_cons c _ (hc1 _ (by decide)), (ih hrest).1,
        List.cons_append]
    · rw [List.cons_append, file_suffix_sub_cons c _ (hc1 _ (by decide)), (ih hrest).2,
        List.cons_append]

/-- C4 (witness): the amended statement at the stem `foo`. -/
theorem c4_witness :
    file_suffix_sub ("foo".toList ++ ('.' :: 'c' :: 'p' :: 'p' :: [])) =
      "foo".toList ++ ('.' :: 'p' :: 'y' :: 'i' :: []) ∧
    file_suffix_sub ("foo".toList ++ ('.' :: 'c' :: [])) =
      "foo".toList ++ ('.' :: 'p' :: 'y' :: 'i' :: []) :=
  c4_suffix_substitution "foo".toList (by decide)

/-!
Claim C7: every fragment a line emits is indented by the level in force
before that line's brace adjustment — the emissions all happen before the
bookkeeping, and each fragment is exactly the pre-adjustment indentation
followed by a non-whitespace character.
-/

/-- C7: each fragment emitted for a line equals `spacesI lvl` (the
indentation before the line's own brace adjustment) followed directly by a
non-whitespace character. -/
theorem c7_emission_indent (classes : List Str) (line : Str) (lvl : Int)
    (frags : List Str) (lvl' : Int)
    (h : processLine classes line lvl = some (frags, lvl')) :
    ∀ f ∈ frags, ∃ (c : Char) (rest : Str),
      f = spacesI lvl ++ c :: rest ∧ isSpacePy c = false := by
  obtain ⟨fns, hfn, hfr⟩ := processLine_frags classes line lvl frags lvl' h
  subst hfr
  intro f hf
  rcases List.mem_append.mp hf with hf1 | hfArr
  · rcases List.mem_append.mp hf1 with hf2 | hfVar
    · rcases List.mem_append.mp hf2 with hfCl | hfFn
      · unfold classFragsOf at hfCl
        cases hcs : class_search line with
        | none => rw [hcs] at hfCl; simp at hfCl
        | some name =>
          rw [hcs] at hfCl
          simp only [List.mem_singleton] at hfCl
          subst hfCl
          refine ⟨'c', "lass ".toList ++ (name ++ ((':' :: '\n' :: [])
            ++ (spacesI (lvl + 4) ++ ("...".toList ++ ('\n' :: []))))), ?_, by decide⟩
          simp only [List.append_assoc]
          rfl
      · unfold fnFragsOf at hfn
        cases hfs : function_search line with
        | none =>
          rw [hfs] at hfn
          simp only [Option.some.injEq] at hfn
          subst hfn
          simp at hfFn
        | some g =>
          rcases g with ⟨g1, g2, g3⟩
          rw [hfs] at hfn
          simp only [] at hfn
          cases hga : _get_function_annotations g1 g2 g3 classes lvl with
          | none => rw [hga] at hfn; simp at hfn
          | some fr =>
            rw [hga] at hfn
            simp only [Option.some.injEq] at hfn
            subst hfn
            simp only [List.mem_singleton] at hfFn
            subst hfFn
            rw [gfa_eq] at hga
            cases hmp : mapParamFrags classes
                (splitChar (removeChar (removeChar g3 '(') ')') ',') with
            | none => rw [hmp] at hga; simp at hga
            | some frs =>
              rw [hmp] at hga
              simp only [Option.some.injEq] at hga
              refine ⟨'d', "ef ".toList ++ (g2 ++ (('(' :: [])
                ++ (frs.flatten ++ (") -> ".toList
                ++ (_get_name (return_type_string g1) classes
                ++ (": ...".toList ++ ('\n' :: '\n' :: []))))))), ?_, by decide⟩
              rw [← hga]
              simp only [List.append_assoc]
              rfl
    · unfold varFragsOf at hfVar
      cases hvs : var_search line with
      | none => rw [hvs] at hfVar; simp at hfVar
      | some g =>
        rcases g with ⟨t, n⟩
        rw [hvs] at hfVar
        simp only [List.mem_singleton] at hfVar
        subst hfVar
        obtain ⟨ch, r, hcr, hw⟩ := var_search_name line t n hvs
        refine ⟨ch, r ++ ((':' :: ' ' :: []) ++ (_get_name t classes ++ ('\n' :: []))),
          ?_, wordChar_not_space ch hw⟩
        rw [hcr]
        simp only [List.append_assoc, List.cons_append]
  · unfold arrFragsOf at hfArr
    cases has : array_search line with
    | none => rw [has] at hfArr; simp at hfArr
    | some g =>
      rcases g with ⟨t, n⟩
      rw [has] at hfArr
      simp only [List.mem_singleton] at hfArr
      subst hfArr
      obtain ⟨ch, r, hcr, hw⟩ := array_search_name line t n has
      refine ⟨ch, r ++ (": _MutableCollection[".toList
        ++ (_get_name t classes ++ (']' :: '\n' :: []))), ?_, wordChar_not_space ch hw⟩
      rw [hcr]
      simp only [List.append_assoc, List.cons_append]

/-- C7 (witness): processing `int x;` at level 4 emits `    x: int` — four
spaces, then the non-whitespace `x`. -/
theorem c7_witness :
    ∃ (c : Char) (rest : Str),
      "    x: int\n".toList = spacesI 4 ++ c :: rest ∧ isSpacePy c = false :=
  c7_emission_indent [] "int x;".toList 4 ["    x: int\n".toList] 4 (by decide)
    "    x: int\n".toList (by decide)

/-!
Claim C5: arrays.
-/

/-- Processing the line `int values[10];` at any level and with any known
classes emits exactly the fragment `values: _MutableCollection[int]` at the
current indentation, leaving the level unchanged. -/
theorem processLine_values (classes : List Str) (lvl : Int) :
    processLine classes "int values[10];".toList lvl =
      some ([spacesI lvl ++ "values: _MutableCollection[int]\n".toList], lvl) := by
  have hf : function_search "int values[10];".toList = none := by decide
  have hc : class_search "int values[10];".toList = none := by decide
  have hv : var_search "int values[10];".toList = none := by decide
  have ha : array_search "int values[10];".toList =
      some ("int".toList, "values".toList) := by decide
  have hu : updateLevel "int values[10];".toList false lvl = lvl := by
    unfold updateLevel
    rw [show ("int values[10];".toList).contains '{' = false by decide,
      show ("int values[10];".toList).contains '}' = false by decide]
    simp
  unfold processLine fnFragsOf classFragsOf varFragsOf arrFragsOf
  rw [hf, hc, hv, ha]
  simp only [Option.isSome_none, hu, List.nil_append, List.append_nil]
  rw [show _get_name "int".toList classes = "int".toList from rfl]
  simp only [List.append_assoc]
  rfl

/-- C5: every source whose lines include `int values[10];` and for which
generation succeeds produces output containing the fragment
`values: _MutableCollection[int]`, where `_MutableCollection` is the name
the fixed preamble declares (`base_chars` contains its class header). -/
theorem c5_array_fragment (code out : Str)
    (hmem : "int values[10];".toList ∈ splitChar code '\n')
    (hgen : generate_stubs_string code = some out) :
    hasSub out "values: _MutableCollection[int]".toList = true ∧
    hasSub base_chars "class _MutableCollection".toList = true := by
  refine ⟨?_, by decide⟩
  obtain ⟨pre, post, hsplit⟩ := List.append_of_mem hmem
  unfold generate_stubs_string at hgen
  cases hw : process_lines (find_classes code) (splitChar code '\n') 0 with
  | none => rw [hw] at hgen; exact absurd hgen (by simp)
  | some r =>
    rcases r with ⟨o, lfin⟩
    rw [hw] at hgen
    simp only [Option.some.injEq] at hgen
    subst hgen
    rw [hsplit, process_lines_append] at hw
    cases h1 : process_lines (find_classes code) pre 0 with
    | none => rw [h1] at hw; simp at hw
    | some r1 =>
      rcases r1 with ⟨o1, l1⟩
      rw [h1] at hw
      simp only [] at hw
      cases h2 : process_lines (find_classes code)
          ("int values[10];".toList :: post) l1 with
      | none => rw [h2] at hw; simp at hw
      | some r2 =>
        rcases r2 with ⟨o2, l2⟩
        rw [h2] at hw
        simp only [Option.some.injEq, Prod.mk.injEq] at hw
        obtain ⟨ho, hl⟩ := hw
        simp only [process_lines, processLine_values (find_classes code) l1] at h2
        cases h3 : process_lines (find_classes code) post l1 with
        | none => rw [h3] at h2; simp at h2
        | some r3 =>
          rcases r3 with ⟨o3, l3⟩
          rw [h3] at h2
          simp only [Option.some.injEq, Prod.mk.injEq] at h2
          obtain ⟨ho2, _⟩ := h2
          rw [← ho, ← ho2]
          apply hasSub_append_right
          apply hasSub_append_right
          simp only [List.flatten_cons, List.flatten_nil, List.append_nil,
            List.append_assoc]
          apply hasSub_append_right
          exact hasSub_of_startsWith _ _ (startsWith_append _ o3 _ (by decide))

/-- C5 (witness): the one-line source `int values[10];` generates output
containing the fragment. -/
theorem c5_witness :
    hasSub ((generate_stubs_string "int values[10];".toList).getD [])
      "values: _MutableCollection[int]".toList = true ∧
    hasSub base_chars "class _MutableCollection".toList = true :=
  c5_array_fragment "int values[10];".toList
    ((generate_stubs_string "int values[10];".toList).getD [])
    (by decide) (by decide)

end EasyCpp
